import Mathlib

/-!
# Verification of the foreground-extraction pixel pipeline

Shallow embedding of `src/lib/image-processor.mjs`: the per-pixel
foreground-extraction algorithm (`extractForeground`) and the safe-area
fitting arithmetic (`prepareForAndroidAdaptiveIcon`).  Real-number
arithmetic in the source is embedded as exact rational arithmetic (`ℚ`);
JavaScript's `Math.round` (round half toward +∞) coincides with Mathlib's
`round` on `ℚ`.  Byte stores into the output buffer (JavaScript `ToUint8`)
are embedded as `· % 256` on integers.
-/

/-- A pixel: four 8-bit channels, stored as naturals.  Valid pixels have all
channels `≤ 255`; theorems state that bound as a hypothesis where needed. -/
structure Pixel where
  r : ℕ
  g : ℕ
  b : ℕ
  a : ℕ
deriving DecidableEq, Repr

/-- All four channels are in byte range. -/
def Pixel.Valid (p : Pixel) : Prop :=
  p.r ≤ 255 ∧ p.g ≤ 255 ∧ p.b ≤ 255 ∧ p.a ≤ 255

instance (p : Pixel) : Decidable p.Valid := by
  unfold Pixel.Valid; infer_instance

/-- An RGBA raster buffer: dimensions plus a row-major pixel list
(the raw buffer of length `width * height * 4` bytes, viewed 4 bytes at a
time). -/
structure RasterBuffer where
  width : ℕ
  height : ℕ
  pixels : List Pixel
deriving DecidableEq, Repr

/-- The pixel list really holds `width * height` pixels. -/
def RasterBuffer.WF (buf : RasterBuffer) : Prop :=
  buf.pixels.length = buf.width * buf.height

/-- JavaScript `Math.abs(x - y)` for two channel values (source lines 61–64). -/
def absDiff (x y : ℕ) : ℕ := ((x : ℤ) - (y : ℤ)).natAbs

/-- The `threshold` of source line 43: channels closer than this count as
identical. -/
def IDENTITY_THRESHOLD : ℕ := 5

/-- Value `maxDiff` (source line 66): max of the four per-channel absolute
differences. -/
def maxDiffOf (fp bp : Pixel) : ℕ :=
  max (max (absDiff fp.r bp.r) (absDiff fp.g bp.g))
      (max (absDiff fp.b bp.b) (absDiff fp.a bp.a))

/-- The identity-classification test from source line 68. -/
def classifiesAsBackground (fp bp : Pixel) : Bool :=
  maxDiffOf fp bp < IDENTITY_THRESHOLD

/-- Value `maxAbsDiff` (source line 89): max absolute signed difference over the
three color channels. -/
def maxAbsDiffOf (fp bp : Pixel) : ℕ :=
  max (absDiff fp.r bp.r) (max (absDiff fp.g bp.g) (absDiff fp.b bp.b))

/-- Clamping `Math.max(0, Math.min(255, ·))` (source lines 108–110). -/
def clamp255 (n : ℤ) : ℤ := max 0 (min 255 n)

/-- A JavaScript byte store `buf[i] = v` coerces via `ToUint8`, i.e. the
value modulo 256. -/
def toByte (v : ℤ) : ℕ := (v % 256).toNat

/-- The candidate foreground channel for a test alpha (source lines
103–110): invert the compositing equation, round, clamp to `[0,255]`. -/
def candFg (fullC bgC : ℕ) (α : ℚ) : ℤ :=
  clamp255 (round (((fullC : ℚ) - (1 - α) * (bgC : ℚ)) / α))

/-- Per-channel reconstruction error for a candidate alpha (source lines
114–121): recompose the clamped foreground over the background and compare
with the full image channel. -/
def candErrC (fullC bgC : ℕ) (α : ℚ) : ℚ :=
  |α * (candFg fullC bgC α : ℚ) + (1 - α) * (bgC : ℚ) - (fullC : ℚ)|

/-- Total reconstruction error for a candidate alpha: sum over R, G, B
(source lines 119–121). -/
def candError (fp bp : Pixel) (α : ℚ) : ℚ :=
  candErrC fp.r bp.r α + candErrC fp.g bp.g α + candErrC fp.b bp.b α

/-- The scan state: `bestAlpha`, `bestError` (`none` embeds the initial
`Infinity`), and the best clamped foreground color (source lines 94–96). -/
structure SearchState where
  bestAlpha : ℚ
  bestError : Option ℚ
  bestFgR : ℤ
  bestFgG : ℤ
  bestFgB : ℤ
deriving DecidableEq, Repr

/-- Comparison `error < bestError` with `none` playing `Infinity` (source line 123). -/
def errLtBest (e : ℚ) : Option ℚ → Bool
  | none => true
  | some b => decide (e < b)

/-- One loop body of the alpha search (source lines 100–133) without the
early exit: evaluate the candidate and keep it if it strictly improves. -/
def updateBest (fp bp : Pixel) (α : ℚ) (s : SearchState) : SearchState :=
  if errLtBest (candError fp bp α) s.bestError then
    ⟨α, some (candError fp bp α), candFg fp.r bp.r α, candFg fp.g bp.g α,
      candFg fp.b bp.b α⟩
  else s

/-- The alpha-search loop (source lines 100–133): fold `updateBest` over the
candidate list, stopping right after the first candidate whose error is
below `0.1` (source line 132). -/
def alphaScan (fp bp : Pixel) : List ℚ → SearchState → SearchState
  | [], s => s
  | α :: rest, s =>
    let s' := updateBest fp bp α s
    if candError fp bp α < 1/10 then s' else alphaScan fp bp rest s'

/-- Start `Math.max(0.01, minAlpha)` with `minAlpha = maxAbsDiff / 255` (source
lines 90, 94, 100). -/
def alphaStart (maxAbsDiff : ℕ) : ℚ := max (1/100) ((maxAbsDiff : ℚ) / 255)

/-- How many candidates `start, start + 0.01, …` lie in `(-∞, 1]`:
`⌊(1 - start)·100⌋ + 1` when `start ≤ 1`, none otherwise. -/
def numCandidates (start : ℚ) : ℕ :=
  if start ≤ 1 then (⌊(1 - start) * 100⌋).toNat + 1 else 0

/-- The exact list of alpha values the `for` loop of source line 100 tests:
`start, start + 0.01, start + 0.02, …`, every one `≤ 1`. -/
def candidateList (start : ℚ) : List ℚ :=
  (List.range (numCandidates start)).map (fun k : ℕ => start + (k : ℚ) / 100)

/-- The final state of the alpha search for one pixel pair: the loop of
source lines 100–133 run over the full candidate list from the initial
state of source lines 94–96. -/
def searchResult (fp bp : Pixel) : SearchState :=
  alphaScan fp bp (candidateList (alphaStart (maxAbsDiffOf fp bp)))
    ⟨alphaStart (maxAbsDiffOf fp bp), none, 0, 0, 0⟩

/-- Test `bestError > 30` (source line 136); the initial `Infinity` also counts
as high. -/
def bestErrHigh (s : SearchState) : Bool :=
  match s.bestError with
  | none => true
  | some e => decide (30 < e)

/-- The per-pixel algorithm (source lines 48–147): identity classification,
alpha search, noise rejection, emission. -/
def extractPixel (fp bp : Pixel) : Pixel :=
  if maxDiffOf fp bp < IDENTITY_THRESHOLD then ⟨0, 0, 0, 0⟩
  else if bestErrHigh (searchResult fp bp) = true ∧ maxAbsDiffOf fp bp < 15 then
    ⟨0, 0, 0, 0⟩
  else
    ⟨toByte (searchResult fp bp).bestFgR, toByte (searchResult fp bp).bestFgG,
      toByte (searchResult fp bp).bestFgB,
      toByte (round ((searchResult fp bp).bestAlpha * 255))⟩

/-- The prefix of a candidate list that the loop actually examines: all
candidates up to and including the first one whose error drops below the
early-exit bound `0.1`. -/
def scannedList (fp bp : Pixel) : List ℚ → List ℚ
  | [] => []
  | α :: rest =>
    if candError fp bp α < 1/10 then [α] else α :: scannedList fp bp rest

/-- The earliest minimum-error candidate among `c :: xs` (running best `c`,
remaining candidates `xs`); strict improvement mirrors `error < bestError`
at source line 123, so ties keep the earlier candidate. -/
def argminErr (fp bp : Pixel) : ℚ → List ℚ → ℚ
  | c, [] => c
  | c, α :: rest =>
    argminErr fp bp (if candError fp bp α < candError fp bp c then α else c) rest

/-- The scan state corresponding to having adopted candidate `α` as best. -/
def mkState (fp bp : Pixel) (α : ℚ) : SearchState :=
  ⟨α, some (candError fp bp α), candFg fp.r bp.r α, candFg fp.g bp.g α,
    candFg fp.b bp.b α⟩

/-- The error thrown at source line 31, carrying both dimension pairs. -/
structure DimensionMismatch where
  fullWidth : ℕ
  fullHeight : ℕ
  bgWidth : ℕ
  bgHeight : ℕ
deriving DecidableEq, Repr

/-- Function `extractForeground` (source lines 22–160): check dimensions, then map
the per-pixel algorithm over corresponding pixel pairs. -/
def extractForeground (full background : RasterBuffer) :
    Except DimensionMismatch RasterBuffer :=
  if full.width ≠ background.width ∨ full.height ≠ background.height then
    .error ⟨full.width, full.height, background.width, background.height⟩
  else
    .ok ⟨full.width, full.height,
      List.zipWith extractPixel full.pixels background.pixels⟩

/-- Constant `ANDROID_LAYER_SIZE` (source line 177). -/
def ANDROID_LAYER_SIZE : ℕ := 432

/-- Constant `ANDROID_SAFE_AREA` (source line 178). -/
def ANDROID_SAFE_AREA : ℕ := 264

/-- Factor `scale` (source line 185): uniform factor fitting the image inside the
safe area. -/
def safeScale (w h : ℕ) : ℚ :=
  min ((ANDROID_SAFE_AREA : ℚ) / (w : ℚ)) ((ANDROID_SAFE_AREA : ℚ) / (h : ℚ))

/-- Quantity `scaledWidth` (source line 186). -/
def scaledWidth (w h : ℕ) : ℤ := round ((w : ℚ) * safeScale w h)

/-- Quantity `scaledHeight` (source line 187). -/
def scaledHeight (w h : ℕ) : ℤ := round ((h : ℚ) * safeScale w h)

/-- Offset `left` (source line 190). -/
def offsetLeft (w h : ℕ) : ℤ :=
  round (((ANDROID_LAYER_SIZE : ℚ) - (scaledWidth w h : ℚ)) / 2)

/-- Offset `top` (source line 191). -/
def offsetTop (w h : ℕ) : ℤ :=
  round (((ANDROID_LAYER_SIZE : ℚ) - (scaledHeight w h : ℚ)) / 2)

/-- Modelled from the spec: the `sharp` `create`/`composite` call of source
lines 194–208 is external library code; per the spec it composites the
scaled image onto a fully transparent `canvasSize × canvasSize` canvas at
offsets `(left, top)`, every canvas pixel outside the pasted region staying
fully transparent.  The scaled image itself (sharp's resampler output) is
taken as an arbitrary buffer of the computed dimensions. -/
def compositeOnTransparent (scaled : RasterBuffer) (left top : ℤ)
    (x y : ℕ) : Pixel :=
  if left ≤ (x : ℤ) ∧ (x : ℤ) < left + (scaled.width : ℤ) ∧
      top ≤ (y : ℤ) ∧ (y : ℤ) < top + (scaled.height : ℤ) then
    scaled.pixels.getD
      (((y : ℤ) - top).toNat * scaled.width + ((x : ℤ) - left).toNat)
      ⟨0, 0, 0, 0⟩
  else ⟨0, 0, 0, 0⟩

/-- Function `prepareForAndroidAdaptiveIcon` (source lines 175–209) as a pixel
function on the output canvas, given the externally resampled scaled image
(which must have the computed dimensions). -/
def prepareForAndroidAdaptiveIcon (w h : ℕ) (scaled : RasterBuffer)
    (x y : ℕ) : Pixel :=
  compositeOnTransparent scaled (offsetLeft w h) (offsetTop w h) x y

/-! ## Basic lemmas -/

lemma absDiff_self (x : ℕ) : absDiff x x = 0 := by
  simp [absDiff]

lemma clamp255_nonneg (n : ℤ) : 0 ≤ clamp255 n := le_max_left 0 _

lemma clamp255_le (n : ℤ) : clamp255 n ≤ 255 := by
  unfold clamp255
  rcases le_or_lt n 255 with h | h
  · simp [min_eq_right h]
    omega
  · simp [min_eq_left h.le]

lemma clamp255_of_mem (n : ℤ) (h0 : 0 ≤ n) (h255 : n ≤ 255) : clamp255 n = n := by
  unfold clamp255
  rw [min_eq_right h255, max_eq_right h0]

lemma toByte_of_mem (v : ℤ) (h0 : 0 ≤ v) (h255 : v ≤ 255) : toByte v = v.toNat := by
  unfold toByte
  rw [Int.emod_eq_of_lt h0 (by omega)]

lemma candFg_mem (fullC bgC : ℕ) (α : ℚ) :
    0 ≤ candFg fullC bgC α ∧ candFg fullC bgC α ≤ 255 :=
  ⟨clamp255_nonneg _, clamp255_le _⟩

/-- The scan is the early-exit-free fold over the examined prefix. -/
lemma alphaScan_eq_foldl (fp bp : Pixel) (l : List ℚ) (s : SearchState) :
    alphaScan fp bp l s =
      List.foldl (fun t α => updateBest fp bp α t) s (scannedList fp bp l) := by
  induction l generalizing s with
  | nil => rfl
  | cons α rest ih =>
    rw [alphaScan, scannedList]
    by_cases h : candError fp bp α < 1/10
    · rw [if_pos h, if_pos h]
      rfl
    · rw [if_neg h, if_neg h, List.foldl_cons, ih]

/-- Folding the improvement step from an adopted-candidate state tracks the
earliest argmin. -/
lemma foldl_updateBest_mkState (fp bp : Pixel) (xs : List ℚ) (c : ℚ) :
    List.foldl (fun t α => updateBest fp bp α t) (mkState fp bp c) xs =
      mkState fp bp (argminErr fp bp c xs) := by
  induction xs generalizing c with
  | nil => rfl
  | cons α rest ih =>
    rw [List.foldl_cons, argminErr]
    have hstep : updateBest fp bp α (mkState fp bp c) =
        mkState fp bp (if candError fp bp α < candError fp bp c then α else c) := by
      unfold updateBest mkState errLtBest
      by_cases h : candError fp bp α < candError fp bp c
      · rw [if_pos h]
        simp [h]
      · rw [if_neg h]
        simp [h]
    rw [hstep, ih]

/-- From the initial state (`bestError = Infinity`), the fold over a
nonempty list lands on the earliest argmin. -/
lemma foldl_updateBest_init (fp bp : Pixel) (x : ℚ) (xs : List ℚ) (a₀ : ℚ) :
    List.foldl (fun t α => updateBest fp bp α t) ⟨a₀, none, 0, 0, 0⟩ (x :: xs) =
      mkState fp bp (argminErr fp bp x xs) := by
  rw [List.foldl_cons]
  have hfirst : updateBest fp bp x ⟨a₀, none, 0, 0, 0⟩ = mkState fp bp x := by
    unfold updateBest errLtBest mkState
    simp
  rw [hfirst, foldl_updateBest_mkState]

/-- The argmin is one of the candidates. -/
lemma argminErr_mem (fp bp : Pixel) (xs : List ℚ) (c : ℚ) :
    argminErr fp bp c xs ∈ c :: xs := by
  induction xs generalizing c with
  | nil => exact List.mem_singleton.mpr rfl
  | cons α rest ih =>
    rw [argminErr]
    by_cases h : candError fp bp α < candError fp bp c
    · rw [if_pos h]
      rcases List.mem_cons.mp (ih α) with h1 | h1
      · rw [h1]
        exact List.mem_cons_of_mem _ (List.mem_cons_self _ _)
      · exact List.mem_cons_of_mem _ (List.mem_cons_of_mem _ h1)
    · rw [if_neg h]
      rcases List.mem_cons.mp (ih c) with h1 | h1
      · rw [h1]
        exact List.mem_cons_self _ _
      · exact List.mem_cons_of_mem _ (List.mem_cons_of_mem _ h1)

/-- The argmin attains the minimum error among all candidates. -/
lemma argminErr_min (fp bp : Pixel) (xs : List ℚ) (c : ℚ) :
    ∀ y ∈ c :: xs, candError fp bp (argminErr fp bp c xs) ≤ candError fp bp y := by
  induction xs generalizing c with
  | nil =>
    intro y hy
    rw [List.mem_singleton.mp hy]
    exact le_refl _
  | cons α rest ih =>
    intro y hy
    rw [argminErr]
    by_cases h : candError fp bp α < candError fp bp c
    · rw [if_pos h]
      rcases List.mem_cons.mp hy with h1 | h1
      · calc candError fp bp (argminErr fp bp α rest) ≤ candError fp bp α :=
              ih α α (List.mem_cons_self _ _)
          _ ≤ candError fp bp y := by rw [h1]; exact h.le
      · exact ih α y h1
    · rw [if_neg h]
      rcases List.mem_cons.mp hy with h1 | h1
      · rw [h1]
        exact ih c c (List.mem_cons_self _ _)
      · rcases List.mem_cons.mp h1 with h2 | h2
        · calc candError fp bp (argminErr fp bp c rest) ≤ candError fp bp c :=
                ih c c (List.mem_cons_self _ _)
            _ ≤ candError fp bp y := by rw [h2]; exact not_lt.mp h
        · exact ih c y (List.mem_cons_of_mem _ h2)

/-- Tie-break: when the candidates are strictly increasing, any candidate
achieving the same error bounds the argmin from above — the scan keeps the
first, hence smallest, alpha among equal errors. -/
lemma argminErr_first (fp bp : Pixel) (xs : List ℚ) (c : ℚ)
    (hs : (c :: xs).Pairwise (· < ·)) :
    ∀ y ∈ c :: xs,
      candError fp bp y = candError fp bp (argminErr fp bp c xs) →
        argminErr fp bp c xs ≤ y := by
  induction xs generalizing c with
  | nil =>
    intro y hy _
    simp [argminErr, List.mem_singleton.mp hy]
  | cons α rest ih =>
    intro y hy heq
    rw [argminErr] at heq ⊢
    have hcα : c < α := (List.pairwise_cons.mp hs).1 α (List.mem_cons_self _ _)
    by_cases h : candError fp bp α < candError fp bp c
    · rw [if_pos h] at heq ⊢
      have hs' : (α :: rest).Pairwise (· < ·) := (List.pairwise_cons.mp hs).2
      rcases List.mem_cons.mp hy with h1 | h1
      · exfalso
        have hmin : candError fp bp (argminErr fp bp α rest) ≤ candError fp bp α :=
          argminErr_min fp bp rest α α (List.mem_cons_self _ _)
        rw [h1] at heq
        rw [heq] at h
        exact absurd (lt_of_le_of_lt hmin h) (lt_irrefl _)
      · exact ih α hs' y h1 heq
    · rw [if_neg h] at heq ⊢
      have hs' : (c :: rest).Pairwise (· < ·) := by
        rcases List.pairwise_cons.mp hs with ⟨hc, hαrest⟩
        exact List.pairwise_cons.mpr
          ⟨fun z hz => hc z (List.mem_cons_of_mem _ hz),
            (List.pairwise_cons.mp hαrest).2⟩
      rcases List.mem_cons.mp hy with h1 | h1
      · exact ih c hs' y (h1 ▸ List.mem_cons_self _ _) heq
      · rcases List.mem_cons.mp h1 with h2 | h2
        · -- y = α : the kept candidate `c` already matches or beats α
          have hmin : candError fp bp (argminErr fp bp c rest) ≤ candError fp bp c :=
            argminErr_min fp bp rest c c (List.mem_cons_self _ _)
          have hcmin : candError fp bp c = candError fp bp (argminErr fp bp c rest) := by
            rw [h2] at heq
            have hce : candError fp bp c ≤ candError fp bp α := not_lt.mp h
            exact le_antisymm (heq ▸ hce) hmin
          calc argminErr fp bp c rest ≤ c :=
                ih c hs' c (List.mem_cons_self _ _) hcmin
            _ ≤ y := by rw [h2]; exact hcα.le
        · exact ih c hs' y (List.mem_cons_of_mem _ h2) heq

/-! ## Lemmas about the examined prefix -/

lemma scannedList_append (fp bp : Pixel) (l : List ℚ) :
    ∃ q, scannedList fp bp l ++ q = l := by
  induction l with
  | nil => exact ⟨[], rfl⟩
  | cons α rest ih =>
    rw [scannedList]
    by_cases h : candError fp bp α < 1/10
    · rw [if_pos h]
      exact ⟨rest, rfl⟩
    · rw [if_neg h]
      obtain ⟨q, hq⟩ := ih
      exact ⟨q, by rw [List.cons_append, hq]⟩

lemma scannedList_cons (fp bp : Pixel) (α : ℚ) (rest : List ℚ) :
    ∃ xs, scannedList fp bp (α :: rest) = α :: xs := by
  rw [scannedList]
  by_cases h : candError fp bp α < 1/10
  · rw [if_pos h]
    exact ⟨[], rfl⟩
  · rw [if_neg h]
    exact ⟨scannedList fp bp rest, rfl⟩

/-- No candidate before the last examined one triggers the early exit. -/
lemma scannedList_dropLast (fp bp : Pixel) (l : List ℚ) :
    ∀ y ∈ (scannedList fp bp l).dropLast, ¬ candError fp bp y < 1/10 := by
  induction l with
  | nil =>
    intro y hy
    simp [scannedList] at hy
  | cons α rest ih =>
    intro y hy
    rw [scannedList] at hy
    by_cases h : candError fp bp α < 1/10
    · rw [if_pos h] at hy
      simp at hy
    · rw [if_neg h] at hy
      rcases hrest : scannedList fp bp rest with _ | ⟨z, zs⟩
      · rw [hrest] at hy
        simp at hy
      · rw [hrest, List.dropLast_cons₂] at hy
        rcases List.mem_cons.mp hy with h1 | h1
        · rw [h1]
          exact h
        · exact ih y (by rw [hrest]; exact h1)

/-- Either the whole list is examined, or the prefix ends at the first
candidate whose error is below the early-exit bound. -/
lemma scannedList_last (fp bp : Pixel) (l : List ℚ) :
    scannedList fp bp l = l ∨
      ∃ z, (scannedList fp bp l).getLast? = some z ∧ candError fp bp z < 1/10 := by
  induction l with
  | nil => exact Or.inl rfl
  | cons α rest ih =>
    rw [scannedList]
    by_cases h : candError fp bp α < 1/10
    · rw [if_pos h]
      exact Or.inr ⟨α, rfl, h⟩
    · rw [if_neg h]
      rcases ih with h1 | ⟨z, hz, hzerr⟩
      · exact Or.inl (by rw [h1])
      · refine Or.inr ⟨z, ?_, hzerr⟩
        rcases hrest : scannedList fp bp rest with _ | ⟨w, ws⟩
        · rw [hrest] at hz
          simp at hz
        · rw [hrest] at hz
          rw [List.getLast?_cons_cons]
          exact hz

/-! ## Lemmas about the candidate list -/

lemma candidateList_length (start : ℚ) :
    (candidateList start).length = numCandidates start := by
  simp [candidateList]

/-- Membership: the loop tests exactly the values `start + k·0.01` that do
not exceed `1`. -/
lemma candidateList_mem_iff (start : ℚ) (hstart : start ≤ 1) (q : ℚ) :
    q ∈ candidateList start ↔ ∃ k : ℕ, q = start + (k : ℚ) / 100 ∧ q ≤ 1 := by
  have hfl0 : (0 : ℤ) ≤ ⌊(1 - start) * 100⌋ := by
    rw [Int.le_floor]
    push_cast
    nlinarith
  constructor
  · rintro hq
    rw [candidateList] at hq
    obtain ⟨k, hk, hfk⟩ := List.mem_map.mp hq
    rw [List.mem_range, numCandidates, if_pos hstart] at hk
    have hk' : (k : ℤ) ≤ ⌊(1 - start) * 100⌋ := by omega
    have hkq : (k : ℚ) ≤ (1 - start) * 100 := by
      have := Int.le_floor.mp hk'
      push_cast at this
      exact this
    refine ⟨k, hfk.symm, ?_⟩
    rw [← hfk]
    nlinarith
  · rintro ⟨k, hqk, hq1⟩
    rw [candidateList]
    refine List.mem_map.mpr ⟨k, ?_, hqk.symm⟩
    rw [List.mem_range, numCandidates, if_pos hstart]
    have hkq : (k : ℚ) ≤ (1 - start) * 100 := by
      rw [hqk] at hq1
      nlinarith
    have : (k : ℤ) ≤ ⌊(1 - start) * 100⌋ := Int.le_floor.mpr (by push_cast; exact hkq)
    omega

lemma candidateList_pairwise (start : ℚ) :
    (candidateList start).Pairwise (· < ·) := by
  rw [candidateList]
  refine List.Pairwise.map _ ?_ (List.pairwise_lt_range _)
  intro a b hab
  have hq : (a : ℚ) < (b : ℚ) := by exact_mod_cast hab
  have : (a : ℚ) / 100 < (b : ℚ) / 100 := by linarith
  linarith

/-- When the scan can run at all (`start ≤ 1`), the candidate list starts
with `start` itself. -/
lemma candidateList_cons (start : ℚ) (hstart : start ≤ 1) :
    ∃ xs, candidateList start = start :: xs := by
  refine ⟨(List.map Nat.succ (List.range (⌊(1 - start) * 100⌋).toNat)).map
    (fun k : ℕ => start + (k : ℚ) / 100), ?_⟩
  rw [candidateList, numCandidates, if_pos hstart, List.range_succ_eq_map,
    List.map_cons]
  norm_num

/-- Every candidate is at least `start`. -/
lemma candidateList_ge (start : ℚ) (q : ℚ) (hq : q ∈ candidateList start) :
    start ≤ q := by
  rw [candidateList] at hq
  obtain ⟨k, _, hfk⟩ := List.mem_map.mp hq
  rw [← hfk]
  have hk : (0 : ℚ) ≤ (k : ℚ) / 100 := by positivity
  linarith

/-- Every candidate is at most `1` (the loop guard). -/
lemma candidateList_le_one (start : ℚ) (hstart : start ≤ 1) (q : ℚ)
    (hq : q ∈ candidateList start) : q ≤ 1 := by
  obtain ⟨k, _, hk⟩ := (candidateList_mem_iff start hstart q).mp hq
  exact hk

/-- The last tested candidate: one more step would leave the loop, so it
sits within `0.01` of the upper bound `1`. -/
lemma candidateList_getLast (start : ℚ) (hstart : start ≤ 1) :
    ∃ αL, (candidateList start).getLast? = some αL ∧
      αL ∈ candidateList start ∧ 1 - 1/100 < αL ∧ αL ≤ 1 := by
  have hfl0 : (0 : ℤ) ≤ ⌊(1 - start) * 100⌋ := by
    rw [Int.le_floor]
    push_cast
    nlinarith
  set m : ℕ := (⌊(1 - start) * 100⌋).toNat with hm
  have hnum : numCandidates start = m + 1 := by
    rw [numCandidates, if_pos hstart]
  refine ⟨start + (m : ℚ) / 100, ?_, ?_, ?_, ?_⟩
  · rw [candidateList, hnum, List.getLast?_map, List.getLast?_range]
    rfl
  · rw [candidateList]
    exact List.mem_map.mpr ⟨m, by rw [hnum, List.mem_range]; omega, rfl⟩
  · have hlt : (1 - start) * 100 < (⌊(1 - start) * 100⌋ : ℚ) + 1 :=
      Int.lt_floor_add_one _
    have hcast : ((⌊(1 - start) * 100⌋ : ℤ) : ℚ) = (m : ℚ) := by
      rw [hm]
      exact_mod_cast (Int.toNat_of_nonneg hfl0).symm
    rw [hcast] at hlt
    nlinarith
  · have hge : ((m : ℤ) : ℚ) ≤ (1 - start) * 100 := by
      have : (m : ℤ) ≤ ⌊(1 - start) * 100⌋ := by omega
      have := Int.le_floor.mp this
      exact this
    push_cast at hge
    nlinarith

/-- For a byte-valued difference the scan's start is a genuine alpha:
`0.01 ≤ start ≤ 1`. -/
lemma alphaStart_mem (d : ℕ) (hd : d ≤ 255) :
    1/100 ≤ alphaStart d ∧ alphaStart d ≤ 1 := by
  constructor
  · exact le_max_left _ _
  · rw [alphaStart]
    refine max_le (by norm_num) ?_
    rw [div_le_one (by norm_num)]
    exact_mod_cast hd

lemma mem_of_getLast_some {γ : Type} : ∀ (l : List γ) (z : γ),
    l.getLast? = some z → z ∈ l
  | [], z, h => by simp at h
  | [x], z, h => by
    simp at h
    rw [h]
    exact List.mem_singleton.mpr rfl
  | x :: y :: ys, z, h => by
    rw [List.getLast?_cons_cons] at h
    exact List.mem_cons_of_mem _ (mem_of_getLast_some (y :: ys) z h)

/-! ## The noise-rejection branch is unreachable on byte-valued pixels -/

/-- Near the top of the scan range the reconstruction is tight: for any
alpha within one step of `1`, a channel pair that differs by at most `14`
reconstructs to within `1/2` (the inverted color needs no clamping, and
recomposition only loses the rounding error). -/
lemma candErrC_near_one (fullC bgC : ℕ) (hf : fullC ≤ 255) (hb : bgC ≤ 255)
    (hd : absDiff fullC bgC ≤ 14) (α : ℚ) (hα1 : 1 - 1/100 < α) (hα2 : α ≤ 1) :
    candErrC fullC bgC α ≤ 1/2 := by
  have hαpos : 0 < α := by linarith
  set x : ℚ := ((fullC : ℚ) - (1 - α) * (bgC : ℚ)) / α with hx
  have hxeq : α * x + (1 - α) * (bgC : ℚ) = (fullC : ℚ) := by
    rw [hx]
    field_simp
  have hdq : |(fullC : ℚ) - (bgC : ℚ)| ≤ 14 := by
    rw [absDiff] at hd
    have h1 : |(fullC : ℤ) - (bgC : ℤ)| ≤ 14 := by
      rw [Int.abs_eq_natAbs]
      exact_mod_cast hd
    exact_mod_cast h1
  have hxf : x - (fullC : ℚ) = (1 - α) * ((fullC : ℚ) - (bgC : ℚ)) / α := by
    rw [hx]
    field_simp
    ring
  have h1α : 0 ≤ 1 - α := by linarith
  have hbound : |x - (fullC : ℚ)| ≤ 14/99 := by
    rw [hxf, abs_div, abs_of_pos hαpos, abs_mul, abs_of_nonneg h1α,
      div_le_iff hαpos]
    nlinarith [abs_nonneg ((fullC : ℚ) - (bgC : ℚ))]
  have hfq : (0 : ℚ) ≤ (fullC : ℚ) := Nat.cast_nonneg _
  have hfq255 : (fullC : ℚ) ≤ 255 := by exact_mod_cast hf
  obtain ⟨hbl, hbr⟩ := abs_le.mp hbound
  have hxlo : -(1/2 : ℚ) < x := by linarith
  have hxhi : x < 255 + 1/2 := by linarith
  have hr0 : (0 : ℤ) ≤ round x := by
    rw [round_eq, Int.le_floor]
    push_cast
    linarith
  have hr255 : round x ≤ 255 := by
    rw [round_eq]
    have hlt : ⌊x + 1/2⌋ < (256 : ℤ) := by
      rw [Int.floor_lt]
      push_cast
      linarith
    omega
  have hclamp : candFg fullC bgC α = round x := by
    unfold candFg
    rw [← hx, clamp255_of_mem _ hr0 hr255]
  unfold candErrC
  rw [hclamp]
  have heq2 : α * ((round x : ℤ) : ℚ) + (1 - α) * (bgC : ℚ) - (fullC : ℚ) =
      α * (((round x : ℤ) : ℚ) - x) := by
    rw [← hxeq]
    ring
  rw [heq2, abs_mul, abs_of_pos hαpos]
  have habs : |((round x : ℤ) : ℚ) - x| ≤ 1/2 := by
    rw [abs_sub_comm]
    exact abs_sub_round x
  nlinarith [abs_nonneg (((round x : ℤ) : ℚ) - x)]

lemma maxAbsDiffOf_le_255 (fp bp : Pixel) (hfv : fp.Valid) (hbv : bp.Valid) :
    maxAbsDiffOf fp bp ≤ 255 := by
  obtain ⟨h1, h2, h3, _⟩ := hfv
  obtain ⟨h4, h5, h6, _⟩ := hbv
  unfold maxAbsDiffOf absDiff
  omega

/-- The scan over the candidate list lands on the state of the earliest
minimum-error examined candidate. -/
lemma searchResult_eq_mkState (fp bp : Pixel)
    (hd : maxAbsDiffOf fp bp ≤ 255) :
    ∃ x xs,
      scannedList fp bp (candidateList (alphaStart (maxAbsDiffOf fp bp))) =
        x :: xs ∧
      searchResult fp bp = mkState fp bp (argminErr fp bp x xs) := by
  obtain ⟨_, hstart1⟩ := alphaStart_mem _ hd
  obtain ⟨rest, hrest⟩ := candidateList_cons _ hstart1
  obtain ⟨xs, hxs⟩ := by
    exact scannedList_cons fp bp (alphaStart (maxAbsDiffOf fp bp)) rest
  refine ⟨alphaStart (maxAbsDiffOf fp bp), xs, by rw [hrest]; exact hxs, ?_⟩
  rw [searchResult, alphaScan_eq_foldl, hrest, hxs]
  exact foldl_updateBest_init fp bp _ xs _

/-- Every examined candidate is a member of the candidate list. -/
lemma scannedList_subset (fp bp : Pixel) (l : List ℚ) (y : ℚ)
    (hy : y ∈ scannedList fp bp l) : y ∈ l := by
  obtain ⟨q, hq⟩ := scannedList_append fp bp l
  rw [← hq]
  exact List.mem_append_left _ hy

/-- On byte-valued pixels with a weak color signal, the scan's final best
error never exceeds `30`: either it early-exited below `0.1`, or the last
candidate (within `0.01` of alpha `1`) reconstructs to within `3/2`.
Consequently the noise-rejection override of source line 136 never fires on
real image data. -/
lemma bestErrHigh_false (fp bp : Pixel) (hfv : fp.Valid) (hbv : bp.Valid)
    (hweak : maxAbsDiffOf fp bp < 15) :
    bestErrHigh (searchResult fp bp) = false := by
  have hd : maxAbsDiffOf fp bp ≤ 255 := maxAbsDiffOf_le_255 fp bp hfv hbv
  obtain ⟨x, xs, hexam, hsr⟩ := searchResult_eq_mkState fp bp hd
  obtain ⟨_, hstart1⟩ := alphaStart_mem _ hd
  set β := argminErr fp bp x xs with hβ
  -- find one examined candidate with error at most 30
  have hgood : ∃ y ∈ x :: xs, candError fp bp y ≤ 30 := by
    rcases scannedList_last fp bp
        (candidateList (alphaStart (maxAbsDiffOf fp bp))) with hall | ⟨z, hz, hzerr⟩
    · -- the whole list was examined: use the last candidate
      obtain ⟨αL, hL1, hL2, hL3, hL4⟩ := candidateList_getLast _ hstart1
      refine ⟨αL, by rw [← hexam, hall]; exact hL2, ?_⟩
      have hch : ∀ fc bc : ℕ, fc ≤ 255 → bc ≤ 255 → absDiff fc bc ≤ 14 →
          candErrC fc bc αL ≤ 1/2 := fun fc bc h1 h2 h3 =>
        candErrC_near_one fc bc h1 h2 h3 αL hL3 hL4
      obtain ⟨hf1, hf2, hf3, _⟩ := hfv
      obtain ⟨hb1, hb2, hb3, _⟩ := hbv
      have hw : absDiff fp.r bp.r ≤ 14 ∧ absDiff fp.g bp.g ≤ 14 ∧
          absDiff fp.b bp.b ≤ 14 := by
        unfold maxAbsDiffOf at hweak
        omega
      have := hch fp.r bp.r hf1 hb1 hw.1
      have := hch fp.g bp.g hf2 hb2 hw.2.1
      have := hch fp.b bp.b hf3 hb3 hw.2.2
      unfold candError
      linarith
    · refine ⟨z, by rw [← hexam]; exact mem_of_getLast_some _ z (hexam ▸ hz), ?_⟩
      linarith
  obtain ⟨y, hymem, hyerr⟩ := hgood
  have hmin : candError fp bp β ≤ candError fp bp y := argminErr_min fp bp xs x y hymem
  rw [hsr]
  unfold bestErrHigh mkState
  simp only [decide_eq_false_iff_not, not_lt]
  linarith

lemma round_byte_mem (β : ℚ) (h1 : 0 ≤ β) (h2 : β ≤ 1) :
    (0 : ℤ) ≤ round (β * 255) ∧ round (β * 255) ≤ 255 := by
  constructor
  · rw [round_eq, Int.le_floor]
    push_cast
    nlinarith
  · rw [round_eq]
    have hlt : ⌊β * 255 + 1/2⌋ < (256 : ℤ) := by
      rw [Int.floor_lt]
      push_cast
      nlinarith
    omega

/-- On byte-valued pixels that enter the alpha search, the emitted pixel is
exactly the earliest minimum-error examined candidate's foreground color
and alpha byte (no byte store ever wraps, and the noise override never
fires). -/
lemma extractPixel_emit (fp bp : Pixel) (hfv : fp.Valid) (hbv : bp.Valid)
    (hEnter : ¬ maxDiffOf fp bp < IDENTITY_THRESHOLD) :
    ∃ x xs,
      scannedList fp bp (candidateList (alphaStart (maxAbsDiffOf fp bp))) =
        x :: xs ∧
      extractPixel fp bp =
        ⟨(candFg fp.r bp.r (argminErr fp bp x xs)).toNat,
          (candFg fp.g bp.g (argminErr fp bp x xs)).toNat,
          (candFg fp.b bp.b (argminErr fp bp x xs)).toNat,
          (round (argminErr fp bp x xs * 255)).toNat⟩ := by
  have hd : maxAbsDiffOf fp bp ≤ 255 := maxAbsDiffOf_le_255 fp bp hfv hbv
  obtain ⟨hstart0, hstart1⟩ := alphaStart_mem _ hd
  obtain ⟨x, xs, hexam, hsr⟩ := searchResult_eq_mkState fp bp hd
  set β := argminErr fp bp x xs with hβ
  have hβcand : β ∈ candidateList (alphaStart (maxAbsDiffOf fp bp)) :=
    scannedList_subset fp bp _ β (hexam ▸ argminErr_mem fp bp xs x)
  have hβ0 : (0 : ℚ) ≤ β := by
    have := candidateList_ge _ _ hβcand
    linarith
  have hβ1 : β ≤ 1 := candidateList_le_one _ hstart1 _ hβcand
  have hcond : ¬ (bestErrHigh (searchResult fp bp) = true ∧
      maxAbsDiffOf fp bp < 15) := by
    rintro ⟨h1, h2⟩
    rw [bestErrHigh_false fp bp hfv hbv h2] at h1
    exact Bool.false_ne_true h1
  refine ⟨x, xs, hexam, ?_⟩
  rw [extractPixel, if_neg hEnter, if_neg hcond, hsr]
  obtain ⟨hr0, hr255⟩ := round_byte_mem β hβ0 hβ1
  unfold mkState
  rw [toByte_of_mem _ (candFg_mem _ _ _).1 (candFg_mem _ _ _).2,
    toByte_of_mem _ (candFg_mem _ _ _).1 (candFg_mem _ _ _).2,
    toByte_of_mem _ (candFg_mem _ _ _).1 (candFg_mem _ _ _).2,
    toByte_of_mem _ hr0 hr255]

/-! ## Claim theorems -/

/-- Claim C1: For every byte-valued pixel pair not classified as pure
background, the alpha search examines exactly the candidates
`max(0.01, minAlpha) + k·0.01` (k = 0, 1, 2, …) that do not exceed `1`,
stopping at the first candidate whose error is below `0.1` (or exhausting
the list); the emitted pixel is built from the minimum-error examined
candidate, ties broken toward the smallest alpha, and its alpha byte is
`round(bestAlpha·255)`. -/
theorem alphaSearch_characterization (fp bp : Pixel)
    (hfv : fp.Valid) (hbv : bp.Valid)
    (hEnter : ¬ maxDiffOf fp bp < IDENTITY_THRESHOLD) :
    (∀ q : ℚ, q ∈ candidateList (alphaStart (maxAbsDiffOf fp bp)) ↔
      ∃ k : ℕ, q = alphaStart (maxAbsDiffOf fp bp) + (k : ℚ) / 100 ∧ q ≤ 1) ∧
    ∃ P : List ℚ,
      (∃ Q, P ++ Q = candidateList (alphaStart (maxAbsDiffOf fp bp))) ∧
      P ≠ [] ∧
      (∀ y ∈ P.dropLast, ¬ candError fp bp y < 1/10) ∧
      (P = candidateList (alphaStart (maxAbsDiffOf fp bp)) ∨
        ∃ z, P.getLast? = some z ∧ candError fp bp z < 1/10) ∧
      ∃ β ∈ P,
        (∀ y ∈ P, candError fp bp β ≤ candError fp bp y) ∧
        (∀ y ∈ P, candError fp bp y = candError fp bp β → β ≤ y) ∧
        extractPixel fp bp =
          ⟨(candFg fp.r bp.r β).toNat, (candFg fp.g bp.g β).toNat,
            (candFg fp.b bp.b β).toNat, (round (β * 255)).toNat⟩ := by
  have hd := maxAbsDiffOf_le_255 fp bp hfv hbv
  obtain ⟨hstart0, hstart1⟩ := alphaStart_mem _ hd
  refine ⟨candidateList_mem_iff _ hstart1, ?_⟩
  obtain ⟨x, xs, hexam, hemit⟩ := extractPixel_emit fp bp hfv hbv hEnter
  refine ⟨x :: xs, ?_, List.cons_ne_nil x xs, ?_, ?_, ?_⟩
  · obtain ⟨q, hq⟩ := scannedList_append fp bp
      (candidateList (alphaStart (maxAbsDiffOf fp bp)))
    exact ⟨q, by rw [← hexam]; exact hq⟩
  · rw [← hexam]
    exact scannedList_dropLast fp bp _
  · rcases scannedList_last fp bp
        (candidateList (alphaStart (maxAbsDiffOf fp bp))) with h | ⟨z, hz, hzerr⟩
    · exact Or.inl (by rw [← hexam, h])
    · exact Or.inr ⟨z, by rw [← hexam]; exact hz, hzerr⟩
  · have hpw : (x :: xs).Pairwise (· < ·) := by
      obtain ⟨q, hq⟩ := scannedList_append fp bp
        (candidateList (alphaStart (maxAbsDiffOf fp bp)))
      rw [hexam] at hq
      have hsub : (x :: xs).Sublist
          (candidateList (alphaStart (maxAbsDiffOf fp bp))) :=
        hq ▸ List.sublist_append_left _ _
      exact List.Pairwise.sublist hsub (candidateList_pairwise _)
    exact ⟨argminErr fp bp x xs, argminErr_mem fp bp xs x,
      argminErr_min fp bp xs x,
      fun y hy heq => argminErr_first fp bp xs x hpw y hy heq, hemit⟩

/-- Witness for C1: the synthetic pair of the spec's round-trip test enters
the search, and the candidate set is the claimed arithmetic progression. -/
theorem alphaSearch_characterization_witness :
    (Pixel.mk 222 173 182 255).Valid ∧ (Pixel.mk 255 255 255 255).Valid ∧
    ¬ maxDiffOf ⟨222, 173, 182, 255⟩ ⟨255, 255, 255, 255⟩ <
      IDENTITY_THRESHOLD ∧
    (∀ q : ℚ,
      q ∈ candidateList
          (alphaStart (maxAbsDiffOf ⟨222, 173, 182, 255⟩
            ⟨255, 255, 255, 255⟩)) ↔
        ∃ k : ℕ,
          q = alphaStart (maxAbsDiffOf ⟨222, 173, 182, 255⟩
                ⟨255, 255, 255, 255⟩) + (k : ℚ) / 100 ∧ q ≤ 1) :=
  ⟨by decide, by decide, by decide,
    (alphaSearch_characterization ⟨222, 173, 182, 255⟩ ⟨255, 255, 255, 255⟩
      (by decide) (by decide) (by decide)).1⟩

/-- Claim C2: Pixels whose four-channel maximum difference is below the
threshold `5` are pure background and yield `(0,0,0,0)`; equal pixels
always do; a pair differing by exactly `4` in every channel classifies as
background; a pair whose maximum channel difference is exactly `5` does
not. -/
theorem identity_classification (fp bp : Pixel) :
    (maxDiffOf fp bp < IDENTITY_THRESHOLD → extractPixel fp bp = ⟨0, 0, 0, 0⟩) ∧
    (fp = bp → extractPixel fp bp = ⟨0, 0, 0, 0⟩) ∧
    ((absDiff fp.r bp.r = 4 ∧ absDiff fp.g bp.g = 4 ∧ absDiff fp.b bp.b = 4 ∧
        absDiff fp.a bp.a = 4) →
      classifiesAsBackground fp bp = true ∧ extractPixel fp bp = ⟨0, 0, 0, 0⟩) ∧
    (maxDiffOf fp bp = IDENTITY_THRESHOLD →
      classifiesAsBackground fp bp = false) := by
  have hid : maxDiffOf fp bp < IDENTITY_THRESHOLD →
      extractPixel fp bp = ⟨0, 0, 0, 0⟩ := by
    intro h
    rw [extractPixel, if_pos h]
  refine ⟨hid, ?_, ?_, ?_⟩
  · intro h
    subst h
    refine hid ?_
    unfold maxDiffOf IDENTITY_THRESHOLD
    simp [absDiff_self]
  · rintro ⟨h1, h2, h3, h4⟩
    have hmax : maxDiffOf fp bp = 4 := by
      unfold maxDiffOf
      rw [h1, h2, h3, h4]
      rfl
    constructor
    · unfold classifiesAsBackground
      rw [hmax]
      rfl
    · exact hid (by rw [hmax]; norm_num [IDENTITY_THRESHOLD])
  · intro h
    unfold classifiesAsBackground
    rw [h]
    rfl

/-- Witness for C2: equal pixels, an all-fours pair, and a max-diff-five
pair behave as claimed. -/
theorem identity_classification_witness :
    extractPixel ⟨7, 7, 7, 7⟩ ⟨7, 7, 7, 7⟩ = ⟨0, 0, 0, 0⟩ ∧
    (classifiesAsBackground ⟨4, 4, 4, 4⟩ ⟨0, 0, 0, 0⟩ = true ∧
      extractPixel ⟨4, 4, 4, 4⟩ ⟨0, 0, 0, 0⟩ = ⟨0, 0, 0, 0⟩) ∧
    classifiesAsBackground ⟨5, 0, 0, 0⟩ ⟨0, 0, 0, 0⟩ = false :=
  ⟨(identity_classification ⟨7, 7, 7, 7⟩ ⟨7, 7, 7, 7⟩).2.1 rfl,
    (identity_classification ⟨4, 4, 4, 4⟩ ⟨0, 0, 0, 0⟩).2.2.1 (by decide),
    (identity_classification ⟨5, 0, 0, 0⟩ ⟨0, 0, 0, 0⟩).2.2.2 (by decide)⟩

set_option maxRecDepth 1000000 in
unseal Rat.add Rat.mul Rat.inv Rat.sub in
/-- Claim C3 is refuted by the code. On the spec's synthetic pair
`Cfull = (222,173,182)`, `Cbg = (255,255,255)` the extractor emits
`(152, 0, 28)` at alpha byte `82` — a different, equally valid
decomposition found at the scan's first candidate — not a pixel within
`±1` of `(200,50,100)` with alpha within `±3` of `153`. -/
theorem roundtrip_reconstruction_cex :
    extractPixel ⟨222, 173, 182, 255⟩ ⟨255, 255, 255, 255⟩ =
      ⟨152, 0, 28, 82⟩ ∧
    ¬ (199 ≤ (extractPixel ⟨222, 173, 182, 255⟩ ⟨255, 255, 255, 255⟩).r ∧
        (extractPixel ⟨222, 173, 182, 255⟩ ⟨255, 255, 255, 255⟩).r ≤ 201 ∧
        49 ≤ (extractPixel ⟨222, 173, 182, 255⟩ ⟨255, 255, 255, 255⟩).g ∧
        (extractPixel ⟨222, 173, 182, 255⟩ ⟨255, 255, 255, 255⟩).g ≤ 51 ∧
        99 ≤ (extractPixel ⟨222, 173, 182, 255⟩ ⟨255, 255, 255, 255⟩).b ∧
        (extractPixel ⟨222, 173, 182, 255⟩ ⟨255, 255, 255, 255⟩).b ≤ 101 ∧
        150 ≤ (extractPixel ⟨222, 173, 182, 255⟩ ⟨255, 255, 255, 255⟩).a ∧
        (extractPixel ⟨222, 173, 182, 255⟩ ⟨255, 255, 255, 255⟩).a ≤ 156) := by
  have h : extractPixel ⟨222, 173, 182, 255⟩ ⟨255, 255, 255, 255⟩ =
      ⟨152, 0, 28, 82⟩ := by decide
  refine ⟨h, ?_⟩
  rw [h]
  decide

set_option maxRecDepth 1000000 in
unseal Rat.add Rat.mul Rat.inv Rat.sub in
/-- Claim C3, amended. The extractor emits exactly `(152, 0, 28, 82)` on the
spec's synthetic pair: the scan starts at the lower bound
`minAlpha = 82/255` and that very first candidate already reconstructs the
composite to total error below `0.13`, so the minimum-error/smallest-alpha
rule keeps it; the recovered decomposition is faithful to the compositing
equation but is not the original `(200,50,100)` at alpha `0.6`. -/
theorem roundtrip_reconstruction_amended :
    extractPixel ⟨222, 173, 182, 255⟩ ⟨255, 255, 255, 255⟩ =
      ⟨152, 0, 28, 82⟩ ∧
    alphaStart (maxAbsDiffOf ⟨222, 173, 182, 255⟩ ⟨255, 255, 255, 255⟩) =
      82/255 ∧
    (searchResult ⟨222, 173, 182, 255⟩ ⟨255, 255, 255, 255⟩).bestAlpha =
      82/255 ∧
    candError ⟨222, 173, 182, 255⟩ ⟨255, 255, 255, 255⟩ (82/255) <
      13/100 := by
  refine ⟨by decide, by decide, by decide, ?_⟩
  decide

/-- Claim C4: For any pixel that entered the alpha search, when the best
error after the scan exceeds `30` while the color signal is weak
(`maxAbsDiff < 15`), the search result is discarded and the pixel is
emitted fully transparent. -/
theorem noise_rejection_override (fp bp : Pixel)
    (hEnter : ¬ maxDiffOf fp bp < IDENTITY_THRESHOLD)
    (hHigh : bestErrHigh (searchResult fp bp) = true)
    (hWeak : maxAbsDiffOf fp bp < 15) :
    extractPixel fp bp = ⟨0, 0, 0, 0⟩ := by
  rw [extractPixel, if_neg hEnter, if_pos ⟨hHigh, hWeak⟩]

set_option maxRecDepth 1000000 in
unseal Rat.add Rat.mul Rat.inv Rat.sub in
/-- Witness for C4.  Byte-valued pixels never satisfy its hypotheses (on
them the last scanned candidate always reconstructs to error `≤ 3/2`, see
`bestErrHigh_false`), but the raw arithmetic does: a pair differing by 10
in one color channel — encoded out of gamut so that no candidate alpha
reconstructs within error 30 — is emitted fully transparent. -/
theorem noise_rejection_override_witness :
    ¬ maxDiffOf ⟨10010, 10000, 10000, 255⟩ ⟨10000, 10000, 10000, 0⟩ <
      IDENTITY_THRESHOLD ∧
    bestErrHigh (searchResult ⟨10010, 10000, 10000, 255⟩
      ⟨10000, 10000, 10000, 0⟩) = true ∧
    maxAbsDiffOf ⟨10010, 10000, 10000, 255⟩ ⟨10000, 10000, 10000, 0⟩ = 10 ∧
    extractPixel ⟨10010, 10000, 10000, 255⟩ ⟨10000, 10000, 10000, 0⟩ =
      ⟨0, 0, 0, 0⟩ :=
  ⟨by decide, by decide, by decide,
    noise_rejection_override ⟨10010, 10000, 10000, 255⟩
      ⟨10000, 10000, 10000, 0⟩ (by decide) (by decide) (by decide)⟩

/-- Claim C5: Mismatched dimensions fail with a dimension-mismatch error
carrying both dimension pairs and produce no output; equal dimensions never
raise an error. -/
theorem dimension_mismatch_check (full bg : RasterBuffer) :
    ((full.width ≠ bg.width ∨ full.height ≠ bg.height) →
      extractForeground full bg =
        .error ⟨full.width, full.height, bg.width, bg.height⟩) ∧
    (full.width = bg.width → full.height = bg.height →
      ∃ out, extractForeground full bg = .ok out) := by
  constructor
  · intro h
    rw [extractForeground, if_pos h]
  · intro h1 h2
    refine ⟨⟨full.width, full.height,
      List.zipWith extractPixel full.pixels bg.pixels⟩, ?_⟩
    rw [extractForeground, if_neg (by simp [h1, h2])]

/-- Witness for C5: a 10×10 buffer against a 10×11 buffer fails with the
mismatch error, and two 10×10 buffers extract without error. -/
theorem dimension_mismatch_check_witness :
    extractForeground ⟨10, 10, List.replicate 100 ⟨0, 0, 0, 0⟩⟩
        ⟨10, 11, List.replicate 110 ⟨0, 0, 0, 0⟩⟩ =
      .error ⟨10, 10, 10, 11⟩ ∧
    ∃ out, extractForeground ⟨10, 10, List.replicate 100 ⟨0, 0, 0, 0⟩⟩
        ⟨10, 10, List.replicate 100 ⟨0, 0, 0, 0⟩⟩ = .ok out :=
  ⟨(dimension_mismatch_check ⟨10, 10, List.replicate 100 ⟨0, 0, 0, 0⟩⟩
      ⟨10, 11, List.replicate 110 ⟨0, 0, 0, 0⟩⟩).1 (Or.inr (by decide)),
    (dimension_mismatch_check ⟨10, 10, List.replicate 100 ⟨0, 0, 0, 0⟩⟩
      ⟨10, 10, List.replicate 100 ⟨0, 0, 0, 0⟩⟩).2 rfl rfl⟩

lemma candFg_eq_self (c : ℕ) (hc : c ≤ 255) (α : ℚ) (hα : α ≠ 0) :
    candFg c c α = c := by
  unfold candFg
  have harg : ((c : ℚ) - (1 - α) * (c : ℚ)) / α = (c : ℚ) := by
    field_simp
    ring
  rw [harg, round_natCast]
  exact clamp255_of_mem _ (Int.natCast_nonneg c) (by exact_mod_cast hc)

lemma candErrC_eq_zero_self (c : ℕ) (hc : c ≤ 255) (α : ℚ) (hα : α ≠ 0) :
    candErrC c c α = 0 := by
  unfold candErrC
  rw [candFg_eq_self c hc α hα]
  have hz : α * ((c : ℤ) : ℚ) + (1 - α) * (c : ℚ) - (c : ℚ) = 0 := by
    push_cast
    ring
  rw [hz, abs_zero]

lemma alphaScan_cons (fp bp : Pixel) (α : ℚ) (rest : List ℚ)
    (s : SearchState) :
    alphaScan fp bp (α :: rest) s =
      if candError fp bp α < 1/10 then updateBest fp bp α s
      else alphaScan fp bp rest (updateBest fp bp α s) := rfl

/-- The color part of the algorithm never reads the input alpha channels:
`maxAbsDiffOf` is invariant under changing them. -/
lemma maxAbsDiffOf_rgb (fp bp fp' bp' : Pixel)
    (h1 : fp.r = fp'.r) (h2 : fp.g = fp'.g) (h3 : fp.b = fp'.b)
    (h4 : bp.r = bp'.r) (h5 : bp.g = bp'.g) (h6 : bp.b = bp'.b) :
    maxAbsDiffOf fp bp = maxAbsDiffOf fp' bp' := by
  unfold maxAbsDiffOf
  rw [h1, h2, h3, h4, h5, h6]

lemma candError_rgb (fp bp fp' bp' : Pixel)
    (h1 : fp.r = fp'.r) (h2 : fp.g = fp'.g) (h3 : fp.b = fp'.b)
    (h4 : bp.r = bp'.r) (h5 : bp.g = bp'.g) (h6 : bp.b = bp'.b) (α : ℚ) :
    candError fp bp α = candError fp' bp' α := by
  unfold candError
  rw [h1, h2, h3, h4, h5, h6]

/-- The whole alpha search never reads the input alpha channels. -/
lemma searchResult_rgb (fp bp fp' bp' : Pixel)
    (h1 : fp.r = fp'.r) (h2 : fp.g = fp'.g) (h3 : fp.b = fp'.b)
    (h4 : bp.r = bp'.r) (h5 : bp.g = bp'.g) (h6 : bp.b = bp'.b) :
    searchResult fp bp = searchResult fp' bp' := by
  have hscan : ∀ (l : List ℚ) (s : SearchState),
      alphaScan fp bp l s = alphaScan fp' bp' l s := by
    intro l
    induction l with
    | nil => intro s; rfl
    | cons α rest ih =>
      intro s
      rw [alphaScan_cons, alphaScan_cons,
        candError_rgb fp bp fp' bp' h1 h2 h3 h4 h5 h6]
      have hupd : updateBest fp bp α s = updateBest fp' bp' α s := by
        unfold updateBest candFg
        rw [candError_rgb fp bp fp' bp' h1 h2 h3 h4 h5 h6, h1, h2, h3, h4, h5, h6]
      rw [hupd, ih]
  unfold searchResult
  rw [maxAbsDiffOf_rgb fp bp fp' bp' h1 h2 h3 h4 h5 h6, hscan]

set_option maxRecDepth 1000000 in
unseal Rat.add Rat.mul Rat.inv Rat.sub in
/-- Claim C6: An opaque foreground over a black background — `Cbg = (0,0,0)`,
`Cfull = (255,255,255)`, any input alpha channels — converges to alpha `1`
and is emitted exactly as the fully opaque `(255,255,255,255)`. -/
theorem white_on_black_extraction (fa ba : ℕ) :
    extractPixel ⟨255, 255, 255, fa⟩ ⟨0, 0, 0, ba⟩ =
      ⟨255, 255, 255, 255⟩ := by
  have hEnter : ¬ maxDiffOf ⟨255, 255, 255, fa⟩ ⟨0, 0, 0, ba⟩ <
      IDENTITY_THRESHOLD := by
    unfold maxDiffOf absDiff IDENTITY_THRESHOLD
    simp only [Pixel.mk.injEq]
    omega
  rw [extractPixel, if_neg hEnter,
    searchResult_rgb ⟨255, 255, 255, fa⟩ ⟨0, 0, 0, ba⟩ ⟨255, 255, 255, 255⟩
      ⟨0, 0, 0, 255⟩ rfl rfl rfl rfl rfl rfl,
    maxAbsDiffOf_rgb ⟨255, 255, 255, fa⟩ ⟨0, 0, 0, ba⟩ ⟨255, 255, 255, 255⟩
      ⟨0, 0, 0, 255⟩ rfl rfl rfl rfl rfl rfl]
  decide

set_option maxRecDepth 1000000 in
unseal Rat.add Rat.mul Rat.inv Rat.sub in
/-- Claim C9: A pixel pair with identical R,G,B but input alpha channels at
least `5` apart enters the search with `maxAbsDiff = 0`; the first
candidate `0.01` reconstructs with error exactly `0` and early-exits, and
the emitted pixel is the background color at alpha byte `3`, not the fully
transparent pixel. -/
theorem equal_rgb_alpha_mismatch (fp bp : Pixel)
    (hr : fp.r = bp.r) (hg : fp.g = bp.g) (hb : fp.b = bp.b)
    (ha : 5 ≤ absDiff fp.a bp.a) (hbv : bp.Valid) :
    maxAbsDiffOf fp bp = 0 ∧
    candError fp bp (1/100) = 0 ∧
    extractPixel fp bp = ⟨bp.r, bp.g, bp.b, 3⟩ := by
  obtain ⟨hb1, hb2, hb3, _⟩ := hbv
  have hmad : maxAbsDiffOf fp bp = 0 := by
    unfold maxAbsDiffOf
    rw [hr, hg, hb, absDiff_self, absDiff_self, absDiff_self]
    simp
  have h100 : ((1 : ℚ)/100) ≠ 0 := by norm_num
  have herr : candError fp bp (1/100) = 0 := by
    unfold candError
    rw [hr, hg, hb, candErrC_eq_zero_self bp.r hb1 _ h100,
      candErrC_eq_zero_self bp.g hb2 _ h100,
      candErrC_eq_zero_self bp.b hb3 _ h100]
    norm_num
  have hEnter : ¬ maxDiffOf fp bp < IDENTITY_THRESHOLD := by
    unfold maxDiffOf IDENTITY_THRESHOLD
    rw [hr, hg, hb, absDiff_self, absDiff_self, absDiff_self]
    omega
  refine ⟨hmad, herr, ?_⟩
  have halph : alphaStart 0 = 1/100 := by
    unfold alphaStart
    rw [Nat.cast_zero, zero_div]
    exact max_eq_left (by norm_num)
  obtain ⟨xs, hxs⟩ := candidateList_cons (alphaStart 0) (by rw [halph]; norm_num)
  have hsr : searchResult fp bp =
      ⟨1/100, some 0, (bp.r : ℤ), (bp.g : ℤ), (bp.b : ℤ)⟩ := by
    rw [searchResult, hmad, hxs, halph, alphaScan_cons, if_pos (by rw [herr]; norm_num)]
    unfold updateBest errLtBest
    rw [if_pos rfl]
    rw [herr]
    rw [show candFg fp.r bp.r (1/100) = (bp.r : ℤ) by
          rw [hr]; exact candFg_eq_self bp.r hb1 _ h100,
        show candFg fp.g bp.g (1/100) = (bp.g : ℤ) by
          rw [hg]; exact candFg_eq_self bp.g hb2 _ h100,
        show candFg fp.b bp.b (1/100) = (bp.b : ℤ) by
          rw [hb]; exact candFg_eq_self bp.b hb3 _ h100]
  rw [extractPixel, if_neg hEnter, hsr]
  have hcond : ¬ (bestErrHigh
      (⟨1/100, some 0, (bp.r : ℤ), (bp.g : ℤ), (bp.b : ℤ)⟩ : SearchState) =
        true ∧ maxAbsDiffOf fp bp < 15) := by
    rintro ⟨h1, _⟩
    simp [bestErrHigh] at h1
    norm_num at h1
  rw [if_neg hcond]
  have htb : ∀ c : ℕ, c ≤ 255 → toByte ((c : ℕ) : ℤ) = c := fun c hc => by
    rw [toByte_of_mem _ (Int.natCast_nonneg c) (by exact_mod_cast hc)]
    exact Int.toNat_natCast c
  have halphabyte : toByte (round ((1/100 : ℚ) * 255)) = 3 := by decide
  simp only [htb bp.r hb1, htb bp.g hb2, htb bp.b hb3, halphabyte]

/-- Witness for C9: identical grey RGB, input alphas 255 versus 0. -/
theorem equal_rgb_alpha_mismatch_witness :
    5 ≤ absDiff 255 0 ∧ (Pixel.mk 10 10 10 0).Valid ∧
    (maxAbsDiffOf ⟨10, 10, 10, 255⟩ ⟨10, 10, 10, 0⟩ = 0 ∧
      candError ⟨10, 10, 10, 255⟩ ⟨10, 10, 10, 0⟩ (1/100) = 0 ∧
      extractPixel ⟨10, 10, 10, 255⟩ ⟨10, 10, 10, 0⟩ = ⟨10, 10, 10, 3⟩) :=
  ⟨by decide, by decide,
    equal_rgb_alpha_mismatch ⟨10, 10, 10, 255⟩ ⟨10, 10, 10, 0⟩ rfl rfl rfl
      (by decide) (by decide)⟩

/-- Claim C7: Per-pixel noninterference: the output pixel at index `i`
depends only on the two input pixels at index `i` — two successful runs
that agree there produce the same output pixel there, whatever the other
pixels are.  (Taking both runs identical, this is determinism.) -/
theorem per_pixel_noninterference (f1 b1 f2 b2 o1 o2 : RasterBuffer) (i : ℕ)
    (h1 : extractForeground f1 b1 = .ok o1)
    (h2 : extractForeground f2 b2 = .ok o2)
    (hf : f1.pixels[i]? = f2.pixels[i]?)
    (hb : b1.pixels[i]? = b2.pixels[i]?) :
    o1.pixels[i]? = o2.pixels[i]? := by
  rw [extractForeground] at h1 h2
  split at h1
  · exact absurd h1 (by simp)
  split at h2
  · exact absurd h2 (by simp)
  injection h1 with h1
  injection h2 with h2
  rw [← h1, ← h2]
  show (List.zipWith extractPixel f1.pixels b1.pixels)[i]? =
    (List.zipWith extractPixel f2.pixels b2.pixels)[i]?
  rw [List.getElem?_zipWith', List.getElem?_zipWith', hf, hb]

/-- Witness for C7: two 2×1 runs agreeing only at index 0. -/
theorem per_pixel_noninterference_witness :
    extractForeground ⟨2, 1, [⟨1, 1, 1, 1⟩, ⟨2, 2, 2, 2⟩]⟩
        ⟨2, 1, [⟨1, 1, 1, 1⟩, ⟨2, 2, 2, 2⟩]⟩ =
      .ok ⟨2, 1, [⟨0, 0, 0, 0⟩, ⟨0, 0, 0, 0⟩]⟩ ∧
    extractForeground ⟨2, 1, [⟨1, 1, 1, 1⟩, ⟨3, 3, 3, 3⟩]⟩
        ⟨2, 1, [⟨1, 1, 1, 1⟩, ⟨4, 4, 4, 4⟩]⟩ =
      .ok ⟨2, 1, [⟨0, 0, 0, 0⟩, ⟨0, 0, 0, 0⟩]⟩ ∧
    (⟨2, 1, [⟨0, 0, 0, 0⟩, ⟨0, 0, 0, 0⟩]⟩ : RasterBuffer).pixels[0]? =
      (⟨2, 1, [⟨0, 0, 0, 0⟩, ⟨0, 0, 0, 0⟩]⟩ : RasterBuffer).pixels[0]? :=
  ⟨rfl, rfl,
    per_pixel_noninterference ⟨2, 1, [⟨1, 1, 1, 1⟩, ⟨2, 2, 2, 2⟩]⟩
      ⟨2, 1, [⟨1, 1, 1, 1⟩, ⟨2, 2, 2, 2⟩]⟩
      ⟨2, 1, [⟨1, 1, 1, 1⟩, ⟨3, 3, 3, 3⟩]⟩
      ⟨2, 1, [⟨1, 1, 1, 1⟩, ⟨4, 4, 4, 4⟩]⟩
      ⟨2, 1, [⟨0, 0, 0, 0⟩, ⟨0, 0, 0, 0⟩]⟩
      ⟨2, 1, [⟨0, 0, 0, 0⟩, ⟨0, 0, 0, 0⟩]⟩ 0 rfl rfl rfl rfl⟩

/-- Claim C8: Totality and shape preservation: on equal-dimension well-formed
buffers the extraction always succeeds with a fully materialized buffer of
the same dimensions, and for every byte-valued difference the per-pixel
scan runs at least one and at most `100` candidates. -/
theorem extraction_total_shape :
    (∀ f b : RasterBuffer, f.width = b.width → f.height = b.height →
      f.WF → b.WF →
      ∃ out, extractForeground f b = .ok out ∧ out.width = f.width ∧
        out.height = f.height ∧ out.WF) ∧
    (∀ d : ℕ, d ≤ 255 →
      1 ≤ (candidateList (alphaStart d)).length ∧
      (candidateList (alphaStart d)).length ≤ 100) := by
  constructor
  · intro f b hw hh hwf1 hwf2
    refine ⟨⟨f.width, f.height,
      List.zipWith extractPixel f.pixels b.pixels⟩, ?_, rfl, rfl, ?_⟩
    · rw [extractForeground, if_neg (by simp [hw, hh])]
    · show (List.zipWith extractPixel f.pixels b.pixels).length =
        f.width * f.height
      rw [List.length_zipWith, hwf1, hwf2, ← hw, ← hh, min_self]
  · intro d hd
    obtain ⟨hs0, hs1⟩ := alphaStart_mem d hd
    rw [candidateList_length, numCandidates, if_pos hs1]
    constructor
    · omega
    · have hfl : ⌊(1 - alphaStart d) * 100⌋ ≤ 99 := by
        have : ⌊(1 - alphaStart d) * 100⌋ < 100 := by
          rw [Int.floor_lt]
          push_cast
          nlinarith
        omega
      omega

/-- Witness for C8: a 1×1 extraction and the zero-difference scan length. -/
theorem extraction_total_shape_witness :
    (∃ out, extractForeground ⟨1, 1, [⟨1, 2, 3, 4⟩]⟩ ⟨1, 1, [⟨4, 3, 2, 1⟩]⟩ =
        .ok out ∧ out.width = 1 ∧ out.height = 1 ∧ out.WF) ∧
    (1 ≤ (candidateList (alphaStart 0)).length ∧
      (candidateList (alphaStart 0)).length ≤ 100) :=
  ⟨extraction_total_shape.1 ⟨1, 1, [⟨1, 2, 3, 4⟩]⟩ ⟨1, 1, [⟨4, 3, 2, 1⟩]⟩
      rfl rfl rfl rfl,
    extraction_total_shape.2 0 (by decide)⟩

lemma round_mem_of_bounds (x : ℚ) (lo hi : ℤ) (h1 : (lo : ℚ) - 1/2 ≤ x)
    (h2 : x < (hi : ℚ) + 1/2) : lo ≤ round x ∧ round x ≤ hi := by
  constructor
  · rw [round_eq, Int.le_floor]
    push_cast
    linarith
  · rw [round_eq]
    have hlt : ⌊x + 1/2⌋ < hi + 1 := by
      rw [Int.floor_lt]
      push_cast
      linarith
    omega

/-- Rounding half of an integer stays within it and centers it: the two
margins `round (u/2)` and `u - round (u/2)` differ by at most one. -/
lemma round_half_centered (u : ℤ) (hu : 1 ≤ u) :
    0 ≤ round ((u : ℚ) / 2) ∧ round ((u : ℚ) / 2) ≤ u ∧
      |2 * ((round ((u : ℚ) / 2) : ℤ) : ℚ) - (u : ℚ)| ≤ 1 := by
  rcases Int.even_or_odd u with ⟨m, hm⟩ | ⟨m, hm⟩
  · subst hm
    have hx : ((m + m : ℤ) : ℚ) / 2 = ((m : ℤ) : ℚ) := by
      push_cast
      ring
    rw [hx, round_intCast]
    refine ⟨by omega, by omega, ?_⟩
    push_cast
    simp [abs_le]
    constructor <;> linarith
  · subst hm
    have hx : ((2 * m + 1 : ℤ) : ℚ) / 2 = ((m : ℤ) : ℚ) + 1/2 := by
      push_cast
      ring
    have hr : round (((m : ℤ) : ℚ) + 1/2) = m + 1 := by
      rw [round_eq]
      have : ((m : ℤ) : ℚ) + 1/2 + 1/2 = ((m + 1 : ℤ) : ℚ) := by
        push_cast
        ring
      rw [this, Int.floor_intCast]
    rw [hx, hr]
    refine ⟨by omega, by omega, ?_⟩
    push_cast
    rw [abs_le]
    constructor <;> linarith

/-- The scale factor is `safeArea / max(w, h)`. -/
lemma safeScale_eq (w h : ℕ) (hw : 1 ≤ w) (hh : 1 ≤ h) :
    safeScale w h = (ANDROID_SAFE_AREA : ℚ) / (max w h : ℕ) := by
  unfold safeScale
  have hwq : (0 : ℚ) < (w : ℚ) := by exact_mod_cast hw
  have hhq : (0 : ℚ) < (h : ℚ) := by exact_mod_cast hh
  rcases le_total w h with hle | hle
  · rw [max_eq_right hle, min_eq_right]
    exact div_le_div_of_nonneg_left (by norm_num) hwq (by exact_mod_cast hle)
  · rw [max_eq_left hle, min_eq_left]
    exact div_le_div_of_nonneg_left (by norm_num) hhq (by exact_mod_cast hle)

lemma scaled_dims (w h : ℕ) (hw : 1 ≤ w) (hh : 1 ≤ h) :
    (0 ≤ scaledWidth w h ∧ scaledWidth w h ≤ 264) ∧
    (0 ≤ scaledHeight w h ∧ scaledHeight w h ≤ 264) ∧
    (scaledWidth w h = 264 ∨ scaledHeight w h = 264) := by
  have hM1 : 1 ≤ max w h := le_trans hw (le_max_left w h)
  have hMq : (0 : ℚ) < ((max w h : ℕ) : ℚ) := by exact_mod_cast hM1
  have hs : safeScale w h = (ANDROID_SAFE_AREA : ℚ) / ((max w h : ℕ) : ℚ) :=
    safeScale_eq w h hw hh
  have hexact : ∀ d : ℕ, d = max w h →
      round ((d : ℚ) * safeScale w h) = 264 := by
    intro d hd
    have : (d : ℚ) * safeScale w h = 264 := by
      rw [hs, hd]
      unfold ANDROID_SAFE_AREA
      field_simp
    rw [this]
    norm_num
  have hbounds : ∀ d : ℕ, d ≤ max w h →
      0 ≤ round ((d : ℚ) * safeScale w h) ∧
        round ((d : ℚ) * safeScale w h) ≤ 264 := by
    intro d hd
    have hd0 : (0 : ℚ) ≤ (d : ℚ) := Nat.cast_nonneg d
    have hsc0 : 0 ≤ safeScale w h := by
      rw [hs]
      positivity
    have hle : (d : ℚ) * safeScale w h ≤ 264 := by
      rw [hs]
      unfold ANDROID_SAFE_AREA
      rw [mul_div_assoc']
      rw [div_le_iff hMq]
      have hdq : (d : ℚ) ≤ ((max w h : ℕ) : ℚ) := by exact_mod_cast hd
      push_cast at hdq ⊢
      nlinarith
    refine round_mem_of_bounds _ 0 264 (by push_cast; nlinarith) ?_
    push_cast
    linarith
  refine ⟨hbounds w (le_max_left w h), hbounds h (le_max_right w h), ?_⟩
  rcases le_total h w with hle | hle
  · exact Or.inl (hexact w (max_eq_left hle).symm)
  · exact Or.inr (hexact h (max_eq_right hle).symm)

lemma offset_centered (sdim : ℤ) (hs0 : 0 ≤ sdim) (hs264 : sdim ≤ 264) :
    0 ≤ round (((432 : ℚ) - ((sdim : ℤ) : ℚ)) / 2) ∧
    round (((432 : ℚ) - ((sdim : ℤ) : ℚ)) / 2) + sdim ≤ 432 ∧
    |2 * ((round (((432 : ℚ) - ((sdim : ℤ) : ℚ)) / 2) : ℤ) : ℚ) +
        ((sdim : ℤ) : ℚ) - 432| ≤ 1 := by
  set u : ℤ := 432 - sdim with hu
  have hu1 : 1 ≤ u := by omega
  have hcast : (432 : ℚ) - ((sdim : ℤ) : ℚ) = ((u : ℤ) : ℚ) := by
    rw [hu]
    push_cast
    ring
  obtain ⟨h1, h2, h3⟩ := round_half_centered u hu1
  rw [hcast]
  refine ⟨h1, by omega, ?_⟩
  have heq : 2 * ((round (((u : ℤ) : ℚ) / 2) : ℤ) : ℚ) + ((sdim : ℤ) : ℚ) -
      432 = 2 * ((round (((u : ℤ) : ℚ) / 2) : ℤ) : ℚ) - ((u : ℤ) : ℚ) := by
    rw [hu]
    push_cast
    ring
  rw [heq]
  exact h3

/-- Claim C10: The Safe-Area Fitter scales uniformly by
`min(264/w, 264/h)` (to within the per-dimension rounding of `0.5`), lands
the larger dimension exactly on `264`, keeps both within the safe area,
centers the result in the `432×432` canvas with margins differing by at
most one pixel, and composites it onto a fully transparent canvas: pixels
outside the pasted window stay `(0,0,0,0)`, pixels inside come from the
scaled image. -/
theorem safe_area_fitting (w h : ℕ) (hw : 1 ≤ w) (hh : 1 ≤ h)
    (scaled : RasterBuffer) :
    |(scaledWidth w h : ℚ) - (w : ℚ) * safeScale w h| ≤ 1/2 ∧
    |(scaledHeight w h : ℚ) - (h : ℚ) * safeScale w h| ≤ 1/2 ∧
    (scaledWidth w h = 264 ∨ scaledHeight w h = 264) ∧
    (0 ≤ scaledWidth w h ∧ scaledWidth w h ≤ 264) ∧
    (0 ≤ scaledHeight w h ∧ scaledHeight w h ≤ 264) ∧
    (0 ≤ offsetLeft w h ∧ offsetLeft w h + scaledWidth w h ≤ 432 ∧
      |2 * ((offsetLeft w h : ℤ) : ℚ) + (scaledWidth w h : ℚ) - 432| ≤ 1) ∧
    (0 ≤ offsetTop w h ∧ offsetTop w h + scaledHeight w h ≤ 432 ∧
      |2 * ((offsetTop w h : ℤ) : ℚ) + (scaledHeight w h : ℚ) - 432| ≤ 1) ∧
    (∀ x y : ℕ,
      ¬ (offsetLeft w h ≤ (x : ℤ) ∧
          (x : ℤ) < offsetLeft w h + (scaled.width : ℤ) ∧
          offsetTop w h ≤ (y : ℤ) ∧
          (y : ℤ) < offsetTop w h + (scaled.height : ℤ)) →
        prepareForAndroidAdaptiveIcon w h scaled x y = ⟨0, 0, 0, 0⟩) ∧
    (∀ x y : ℕ,
      (offsetLeft w h ≤ (x : ℤ) ∧
          (x : ℤ) < offsetLeft w h + (scaled.width : ℤ) ∧
          offsetTop w h ≤ (y : ℤ) ∧
          (y : ℤ) < offsetTop w h + (scaled.height : ℤ)) →
        prepareForAndroidAdaptiveIcon w h scaled x y =
          scaled.pixels.getD
            (((y : ℤ) - offsetTop w h).toNat * scaled.width +
              ((x : ℤ) - offsetLeft w h).toNat) ⟨0, 0, 0, 0⟩) := by
  obtain ⟨⟨hsw0, hsw264⟩, ⟨hsh0, hsh264⟩, hmaxdim⟩ := scaled_dims w h hw hh
  have hofl : offsetLeft w h =
      round (((432 : ℚ) - ((scaledWidth w h : ℤ) : ℚ)) / 2) := by
    unfold offsetLeft ANDROID_LAYER_SIZE
    norm_num
  have hoft : offsetTop w h =
      round (((432 : ℚ) - ((scaledHeight w h : ℤ) : ℚ)) / 2) := by
    unfold offsetTop ANDROID_LAYER_SIZE
    norm_num
  obtain ⟨hL0, hLfit, hLctr⟩ := offset_centered (scaledWidth w h) hsw0 hsw264
  obtain ⟨hT0, hTfit, hTctr⟩ := offset_centered (scaledHeight w h) hsh0 hsh264
  refine ⟨?_, ?_, hmaxdim, ⟨hsw0, hsw264⟩, ⟨hsh0, hsh264⟩,
    ⟨by rw [hofl]; exact hL0, by rw [hofl]; omega, by rw [hofl]; exact hLctr⟩,
    ⟨by rw [hoft]; exact hT0, by rw [hoft]; omega, by rw [hoft]; exact hTctr⟩,
    ?_, ?_⟩
  · rw [abs_sub_comm]
    exact abs_sub_round ((w : ℚ) * safeScale w h)
  · rw [abs_sub_comm]
    exact abs_sub_round ((h : ℚ) * safeScale w h)
  · intro x y hxy
    unfold prepareForAndroidAdaptiveIcon compositeOnTransparent
    rw [if_neg hxy]
  · intro x y hxy
    unfold prepareForAndroidAdaptiveIcon compositeOnTransparent
    rw [if_pos hxy]

/-- Witness for C10 at a 100×50 input with a 264×132 scaled layer. -/
theorem safe_area_fitting_witness :
    (1 : ℕ) ≤ 100 ∧ (1 : ℕ) ≤ 50 ∧
    (scaledWidth 100 50 = 264 ∨ scaledHeight 100 50 = 264) :=
  ⟨by decide, by decide,
    (safe_area_fitting 100 50 (by decide) (by decide)
      ⟨264, 132, []⟩).2.2.1⟩

/-- Witness for C6 with both input alpha channels fully opaque. -/
theorem white_on_black_extraction_witness :
    extractPixel ⟨255, 255, 255, 255⟩ ⟨0, 0, 0, 255⟩ =
      ⟨255, 255, 255, 255⟩ :=
  white_on_black_extraction 255 255
